import Mathlib

/-!
Verification of the KindleWood windowed PDF reading engine.

The definitions below are a shallow embedding of the reader core found in
the repository sources (the `PDFReader` / `StickyNote` components and the
bookmark sync logic).  JavaScript numbers used as page indices are modelled
as `ℤ`; intersection ratios, zoom scales and percentage coordinates are
modelled as `ℚ` (the decimal constants of the source are written as
fractions, e.g. `0.6 = mkRat 3 5`).
-/

namespace KindleWood

/-! ### Render window

Source (`renderedPages`, PDFReader):
```
if (!numPages) return new Set();
const start = Math.max(1, currentPage - PDF_RENDER_BUFFER);
const end = Math.min(numPages, currentPage + PDF_RENDER_BUFFER);
const set = new Set(); for (let i = start; i <= end; i++) set.add(i); return set;
```
The loop inserts every integer from `start` to `end`, i.e. the integer
interval `Icc start end` (empty when `start > end`).  A missing/zero
`numPages` is modelled as `numPages = 0`.  The source fixes the buffer
radius to the constant `PDF_RENDER_BUFFER = 2`; the radius is kept as a
parameter so the spec's universally quantified property can be stated.
-/

def PDF_RENDER_BUFFER : ℤ := 2

def computeWindow (currentPage numPages bufferRadius : ℤ) : Finset ℤ :=
  if numPages = 0 then ∅
  else Finset.Icc (max 1 (currentPage - bufferRadius))
    (min numPages (currentPage + bufferRadius))

/-- C4: for `1 ≤ currentPage ≤ pageCount` and radius `R ≥ 0`, the rendered
page set is exactly the contiguous range
`[max(1, currentPage − R), min(pageCount, currentPage + R)]`; it contains
`currentPage` and its size is at most `2R + 1`. -/
theorem c4_render_window_invariant (c n R : ℤ) (hR : 0 ≤ R)
    (hc1 : 1 ≤ c) (hcn : c ≤ n) :
    computeWindow c n R = Finset.Icc (max 1 (c - R)) (min n (c + R)) ∧
    c ∈ computeWindow c n R ∧
    ((computeWindow c n R).card : ℤ) ≤ 2 * R + 1 := by
  have hn : n ≠ 0 := by omega
  have hwin : computeWindow c n R
      = Finset.Icc (max 1 (c - R)) (min n (c + R)) := by
    simp [computeWindow, hn]
  refine ⟨hwin, ?_, ?_⟩
  · rw [hwin, Finset.mem_Icc]
    constructor <;> [exact max_le hc1 (by omega); exact le_min hcn (by omega)]
  · rw [hwin, Int.card_Icc]
    have h1 : 1 ≤ max 1 (c - R) := le_max_left _ _
    have h2 : c - R ≤ max 1 (c - R) := le_max_right _ _
    have h3 : min n (c + R) ≤ c + R := min_le_right _ _
    omega

theorem c4_render_window_invariant_witness :
    computeWindow 7 10 2 = Finset.Icc 5 9 ∧
    7 ∈ computeWindow 7 10 2 ∧
    ((computeWindow 7 10 2).card : ℤ) ≤ 2 * 2 + 1 := by
  have h := c4_render_window_invariant 7 10 2 (by decide) (by decide) (by decide)
  refine ⟨?_, h.2.1, h.2.2⟩
  rw [h.1]; decide

/-- C3 fails as stated: near a document boundary the window shrinks, so its
size is not `min(2·bufferRadius+1, pageCount)`.  At `currentPage = 1`,
`pageCount = 10`, `bufferRadius = 2` the window is `{1, 2, 3}` of size 3,
while the claim demands `min(5, 10) = 5`. -/
theorem c3_counterexample :
    computeWindow 1 10 2 = Finset.Icc 1 3 ∧
    ((computeWindow 1 10 2).card : ℤ) ≠ min (2 * 2 + 1) 10 := by
  constructor <;> decide

/-- C3 amended: for `pageCount ≥ 1`, `1 ≤ currentPage ≤ pageCount` and
`bufferRadius ≥ 0`, `computeWindow` returns the contiguous range
`[max(1, currentPage − R), min(pageCount, currentPage + R)]`, which contains
`currentPage`, is contained in `[1, pageCount]`, and has size
`min(pageCount, currentPage+R) − max(1, currentPage−R) + 1`, which is at
most `min(2·R+1, pageCount)` (the window shrinks at the boundaries rather
than keeping the full size). -/
theorem c3_amended_render_window (c n R : ℤ) (hR : 0 ≤ R)
    (hc1 : 1 ≤ c) (hcn : c ≤ n) :
    computeWindow c n R = Finset.Icc (max 1 (c - R)) (min n (c + R)) ∧
    c ∈ computeWindow c n R ∧
    computeWindow c n R ⊆ Finset.Icc 1 n ∧
    ((computeWindow c n R).card : ℤ)
      = min n (c + R) - max 1 (c - R) + 1 ∧
    ((computeWindow c n R).card : ℤ) ≤ min (2 * R + 1) n := by
  have hn : n ≠ 0 := by omega
  have hwin : computeWindow c n R
      = Finset.Icc (max 1 (c - R)) (min n (c + R)) := by
    simp [computeWindow, hn]
  have hlo : max 1 (c - R) ≤ c := max_le hc1 (by omega)
  have hhi : c ≤ min n (c + R) := le_min hcn (by omega)
  refine ⟨hwin, ?_, ?_, ?_, ?_⟩
  · rw [hwin, Finset.mem_Icc]; exact ⟨hlo, hhi⟩
  · rw [hwin]
    intro x hx
    rw [Finset.mem_Icc] at hx ⊢
    have h1 : 1 ≤ max 1 (c - R) := le_max_left _ _
    have h2 : min n (c + R) ≤ n := min_le_left _ _
    omega
  · rw [hwin, Int.card_Icc]
    omega
  · rw [hwin, Int.card_Icc]
    have h1 : 1 ≤ max 1 (c - R) := le_max_left _ _
    have h2 : c - R ≤ max 1 (c - R) := le_max_right _ _
    have h3 : min n (c + R) ≤ c + R := min_le_right _ _
    have h4 : min n (c + R) ≤ n := min_le_left _ _
    omega

theorem c3_amended_render_window_witness :
    computeWindow 1 10 2 = Finset.Icc 1 3 ∧
    ((computeWindow 1 10 2).card : ℤ) = 3 ∧
    ((computeWindow 1 10 2).card : ℤ) ≤ min (2 * 2 + 1) 10 := by
  have h := c3_amended_render_window 1 10 2 (by decide) (by decide) (by decide)
  refine ⟨?_, ?_, h.2.2.2.2⟩
  · rw [h.1]; decide
  · rw [h.2.2.2.1]; decide

/-! ### Visibility resolver

Source (PDFReader IntersectionObserver callback):
```
entries.forEach((entry) => {
  ratioMapRef.current[entry.target.dataset.page] = entry.intersectionRatio; });
if (ioThrottleRef.current) return;
ioThrottleRef.current = setTimeout(() => {
  ioThrottleRef.current = null;
  let bestPage = null; let bestRatio = 0;
  Object.entries(ratioMapRef.current).forEach(([page, ratio]) => {
    if (ratio > bestRatio) { bestRatio = ratio; bestPage = Number(page); } });
  if (bestPage !== null && bestRatio > 0.6) { setCurrentPage(bestPage); }
}, 100);
```
The persistent map is a JS object keyed by (numeric string) page numbers;
`Object.entries` iterates such keys in ascending numeric order, so the map
is modelled as an association list kept sorted by key, with `upsert`
modelling the assignment `map[page] = ratio`.  Nothing in the component
ever deletes a key from `ratioMapRef.current`.
-/

abbrev RatioMap := List (ℤ × ℚ)

def upsert : RatioMap → ℤ → ℚ → RatioMap
  | [], k, v => [(k, v)]
  | (k', v') :: rest, k, v =>
    if k < k' then (k, v) :: (k', v') :: rest
    else if k = k' then (k, v) :: rest
    else (k', v') :: upsert rest k v

/-- `entries.forEach` merging a batch of observed ratios into the map. -/
def mergeBatch (m : RatioMap) (entries : List (ℤ × ℚ)) : RatioMap :=
  entries.foldl (fun acc e => upsert acc e.1 e.2) m

/-- One step of the `Object.entries(...).forEach` best-ratio scan. -/
def scanStep (acc : Option ℤ × ℚ) (e : ℤ × ℚ) : Option ℤ × ℚ :=
  if acc.2 < e.2 then (some e.1, e.2) else acc

/-- The full-map scan: `bestPage = null; bestRatio = 0;` then fold. -/
def scanBest (m : RatioMap) : Option ℤ × ℚ :=
  m.foldl scanStep (none, 0)

/-- The deferred commit body: commit the best page only when
`bestPage !== null && bestRatio > 0.6` (0.6 = mkRat 3 5). -/
def commitPage (m : RatioMap) (cur : ℤ) : ℤ :=
  match scanBest m with
  | (some p, br) => if mkRat 3 5 < br then p else cur
  | (none, _) => cur

lemma scanFoldl_spec (m : RatioMap) :
    ∀ acc : Option ℤ × ℚ,
      (m.foldl scanStep acc = acc ∧ ∀ e ∈ m, e.2 ≤ acc.2) ∨
      (∃ p, m.foldl scanStep acc = (some p, (m.foldl scanStep acc).2) ∧
        (p, (m.foldl scanStep acc).2) ∈ m ∧ acc.2 < (m.foldl scanStep acc).2 ∧
        ∀ e ∈ m, e.2 ≤ (m.foldl scanStep acc).2) := by
  induction m with
  | nil => intro acc; left; exact ⟨rfl, by simp⟩
  | cons e m ih =>
    intro acc
    obtain ⟨k, r⟩ := e
    rw [List.foldl_cons]
    by_cases h : acc.2 < r
    · have hstep : scanStep acc (k, r) = (some k, r) := by
        simp [scanStep, h]
      rw [hstep]
      rcases ih (some k, r) with ⟨heq, hall⟩ | ⟨p, heq, hmem, hlt, hall⟩
      · right
        refine ⟨k, ?_, ?_, ?_, ?_⟩
        · rw [heq]
        · rw [heq]; exact List.mem_cons_self _ _
        · rw [heq]; exact h
        · intro e' he'
          rcases List.mem_cons.mp he' with he' | he'
          · rw [heq, he']
          · rw [heq]; exact hall e' he'
      · right
        refine ⟨p, heq, List.mem_cons_of_mem _ hmem, ?_, ?_⟩
        · exact lt_trans h hlt
        · intro e' he'
          rcases List.mem_cons.mp he' with he' | he'
          · rw [he']; exact le_of_lt hlt
          · exact hall e' he'
    · have hstep : scanStep acc (k, r) = acc := by
        simp [scanStep, h]
      rw [hstep]
      rcases ih acc with ⟨heq, hall⟩ | ⟨p, heq, hmem, hlt, hall⟩
      · left
        refine ⟨heq, ?_⟩
        intro e' he'
        rcases List.mem_cons.mp he' with he' | he'
        · rw [he']; exact not_lt.mp h
        · exact hall e' he'
      · right
        refine ⟨p, heq, List.mem_cons_of_mem _ hmem, hlt, ?_⟩
        intro e' he'
        rcases List.mem_cons.mp he' with he' | he'
        · rw [he']; exact le_of_lt (lt_of_le_of_lt (not_lt.mp h) hlt)
        · exact hall e' he'

lemma commitPage_retain (m : RatioMap) (cur : ℤ)
    (h : ∀ e ∈ m, e.2 ≤ mkRat 3 5) : commitPage m cur = cur := by
  unfold commitPage scanBest
  rcases scanFoldl_spec m (none, 0) with ⟨heq, _⟩ | ⟨p, heq, hmem, _, _⟩
  · rw [heq]
  · rw [heq]
    have hle : (m.foldl scanStep (none, 0)).2 ≤ mkRat 3 5 := h _ hmem
    simp [not_lt.mpr hle]

lemma commitPage_commits (m : RatioMap) (cur : ℤ)
    (h : ∃ e ∈ m, mkRat 3 5 < e.2) :
    ∃ p r, commitPage m cur = p ∧ (p, r) ∈ m ∧ mkRat 3 5 < r ∧
      ∀ e ∈ m, e.2 ≤ r := by
  obtain ⟨e₀, hmem₀, hgt₀⟩ := h
  rcases scanFoldl_spec m (none, 0) with ⟨_, hall⟩ | ⟨p, heq, hmem, _, hall⟩
  · exfalso
    have h0 : e₀.2 ≤ 0 := hall e₀ hmem₀
    have hpos : (0 : ℚ) < mkRat 3 5 := by decide
    linarith
  · have hgt : mkRat 3 5 < (m.foldl scanStep (none, 0)).2 :=
      lt_of_lt_of_le hgt₀ (hall e₀ hmem₀)
    refine ⟨p, (m.foldl scanStep (none, 0)).2, ?_, hmem, hgt, hall⟩
    unfold commitPage scanBest
    rw [heq]
    simp [hgt]

/-- One observer event: either a batch of ratio updates (merged into the
persistent map) or the firing of the deferred commit timer. -/
inductive ObsEvent
  | observe (batch : List (ℤ × ℚ))
  | tick

/-- Resolver state: the persistent ratio map and the committed page. -/
structure ResolverState where
  map : RatioMap
  cur : ℤ

def stepEvent (s : ResolverState) : ObsEvent → ResolverState
  | ObsEvent.observe b => { s with map := mergeBatch s.map b }
  | ObsEvent.tick => { s with cur := commitPage s.map s.cur }

def runEvents (s : ResolverState) (evs : List ObsEvent) : ResolverState :=
  evs.foldl stepEvent s

/-- Every stored ratio is at or below the 0.6 threshold. -/
def belowThreshold (m : RatioMap) : Bool :=
  m.all fun e => decide (e.2 ≤ mkRat 3 5)

/-- At every commit tick along the event sequence, every stored ratio in the
persistent map is at or below 0.6. -/
def noTickExceedsB (s : ResolverState) : List ObsEvent → Bool
  | [] => true
  | ObsEvent.observe b :: evs =>
      noTickExceedsB (stepEvent s (ObsEvent.observe b)) evs
  | ObsEvent.tick :: evs =>
      belowThreshold s.map && noTickExceedsB (stepEvent s ObsEvent.tick) evs

lemma runEvents_cur_const (evs : List ObsEvent) :
    ∀ s : ResolverState, noTickExceedsB s evs = true →
      (runEvents s evs).cur = s.cur := by
  induction evs with
  | nil => intro s _; rfl
  | cons e evs ih =>
    intro s h
    cases e with
    | observe b =>
      have hstep : (stepEvent s (ObsEvent.observe b)).cur = s.cur := rfl
      rw [runEvents, List.foldl_cons, ← runEvents, ← hstep]
      exact ih _ (by simpa [noTickExceedsB] using h)
    | tick =>
      rw [noTickExceedsB, Bool.and_eq_true] at h
      have hall : ∀ e ∈ s.map, e.2 ≤ mkRat 3 5 := by
        intro e he
        have := List.all_eq_true.mp h.1 e he
        exact of_decide_eq_true this
      have hstep : stepEvent s ObsEvent.tick = s := by
        show { s with cur := commitPage s.map s.cur } = s
        rw [commitPage_retain s.map s.cur hall]
      rw [runEvents, List.foldl_cons, ← runEvents, hstep]
      rw [hstep] at h
      exact ih s h.2

/-- C1: when the deferred commit fires, the resolver scans the whole
persistent map; it commits a page holding the globally highest ratio iff
that ratio strictly exceeds 0.6 (= mkRat 3 5), otherwise `currentPage` is
retained; consequently, along any event sequence in which every stored
ratio is at or below 0.6 at every commit tick, `currentPage` never
changes. -/
theorem c1_commit_rule :
    (∀ (m : RatioMap) (cur : ℤ),
      ((∀ e ∈ m, e.2 ≤ mkRat 3 5) → commitPage m cur = cur) ∧
      ((∃ e ∈ m, mkRat 3 5 < e.2) →
        ∃ p r, commitPage m cur = p ∧ (p, r) ∈ m ∧ mkRat 3 5 < r ∧
          ∀ e ∈ m, e.2 ≤ r)) ∧
    (∀ (s : ResolverState) (evs : List ObsEvent),
      noTickExceedsB s evs = true → (runEvents s evs).cur = s.cur) :=
  ⟨fun m cur => ⟨commitPage_retain m cur, commitPage_commits m cur⟩,
   fun s evs h => runEvents_cur_const evs s h⟩

theorem c1_commit_rule_witness :
    commitPage [((1 : ℤ), mkRat 9 20), (2, mkRat 11 20)] 7 = 7 ∧
    commitPage [((1 : ℤ), mkRat 1 2), (2, mkRat 7 10)] 1 = 2 ∧
    (runEvents ⟨[], 4⟩
      [ObsEvent.observe [(1, mkRat 9 20), (2, mkRat 11 20)], ObsEvent.tick,
       ObsEvent.observe [(1, mkRat 11 20), (2, mkRat 9 20)],
       ObsEvent.tick]).cur = 4 := by
  refine ⟨?_, ?_, ?_⟩
  · exact (c1_commit_rule.1 [((1 : ℤ), mkRat 9 20), (2, mkRat 11 20)] 7).1
      (by decide)
  · obtain ⟨p, r, heq, hmem, hgt, -⟩ :=
      (c1_commit_rule.1 [((1 : ℤ), mkRat 1 2), (2, mkRat 7 10)] 1).2
        ⟨(2, mkRat 7 10), by decide, by decide⟩
    simp only [List.mem_cons, List.not_mem_nil, or_false] at hmem
    rcases hmem with hmem | hmem
    · exfalso
      have hr : r = mkRat 1 2 := congrArg Prod.snd hmem
      rw [hr] at hgt
      exact absurd hgt (by decide)
    · have hp : p = 2 := congrArg Prod.fst hmem
      rw [heq]
      exact hp
  · exact c1_commit_rule.2 _ _ (by decide)

/-! ### C2: the purge claim

The spec demands that removing a page from the render window purge its
entry from the persistent ratio map.  The source never deletes any key of
`ratioMapRef.current` (the only write is `map[page] = ratio`), so a page
that leaves the render window keeps its last reported ratio and can win a
later commit.
-/

def c2TracePrefix : List ObsEvent :=
  [ObsEvent.observe [(1, mkRat 9 10)], ObsEvent.tick,
   ObsEvent.observe [(10, mkRat 19 20)], ObsEvent.tick]

def c2TraceFull : List ObsEvent :=
  c2TracePrefix ++ [ObsEvent.observe [(10, mkRat 1 2)], ObsEvent.tick]

/-- C2 fails on the code: after the trace `c2TracePrefix` the committed
page is 10, page 1 is outside the render window of a 20-page document, yet
its entry `(1, 0.9)` is still in the persistent map, and one further batch
(page 10 dropping to ratio 0.5) followed by a commit tick makes the stale
page 1 win: `currentPage` becomes 1 again. -/
theorem c2_counterexample :
    (runEvents ⟨[], 1⟩ c2TracePrefix).cur = 10 ∧
    (1 : ℤ) ∉ computeWindow (runEvents ⟨[], 1⟩ c2TracePrefix).cur 20
      PDF_RENDER_BUFFER ∧
    ((1 : ℤ), mkRat 9 10) ∈ (runEvents ⟨[], 1⟩ c2TracePrefix).map ∧
    (runEvents ⟨[], 1⟩ c2TraceFull).cur = 1 := by
  refine ⟨?_, ?_, ?_, ?_⟩ <;> decide

def mapKeys (m : RatioMap) : List ℤ := m.map Prod.fst

lemma mem_mapKeys_upsert (k₀ : ℤ) (v : ℚ) (k : ℤ) :
    ∀ m : RatioMap, k ∈ mapKeys m → k ∈ mapKeys (upsert m k₀ v) := by
  intro m
  induction m with
  | nil => intro h; simp [mapKeys] at h
  | cons e rest ih =>
    obtain ⟨k', v'⟩ := e
    intro h
    simp only [mapKeys, List.map_cons, List.mem_cons] at h
    by_cases h1 : k₀ < k'
    · simp only [upsert, if_pos h1, mapKeys, List.map_cons, List.mem_cons]
      rcases h with h | h
      · exact Or.inr (Or.inl h)
      · exact Or.inr (Or.inr h)
    · by_cases h2 : k₀ = k'
      · simp only [upsert, if_neg h1, if_pos h2, mapKeys, List.map_cons,
          List.mem_cons]
        rcases h with h | h
        · exact Or.inl (h.trans h2.symm)
        · exact Or.inr h
      · simp only [upsert, if_neg h1, if_neg h2, mapKeys, List.map_cons,
          List.mem_cons]
        rcases h with h | h
        · exact Or.inl h
        · exact Or.inr (ih h)

lemma mem_mapKeys_mergeBatch (k : ℤ) :
    ∀ (b : List (ℤ × ℚ)) (m : RatioMap),
      k ∈ mapKeys m → k ∈ mapKeys (mergeBatch m b) := by
  intro b
  induction b with
  | nil => intro m h; exact h
  | cons e b ih =>
    intro m h
    have : mergeBatch m (e :: b) = mergeBatch (upsert m e.1 e.2) b := rfl
    rw [this]
    exact ih _ (mem_mapKeys_upsert e.1 e.2 k m h)

/-- C2 amended: the persistent ratio map is never purged — its key set only
grows.  Every key present in the map before any sequence of observer events
is still present afterwards; in particular a page that leaves the render
window keeps its entry, and its stale ratio can win a later commit (shown
concretely on the trace `c2TraceFull`). -/
theorem c2_amended_no_purge (evs : List ObsEvent) :
    ∀ (s : ResolverState) (k : ℤ),
      k ∈ mapKeys s.map → k ∈ mapKeys (runEvents s evs).map := by
  induction evs with
  | nil => intro s k h; exact h
  | cons e evs ih =>
    intro s k h
    rw [runEvents, List.foldl_cons, ← runEvents]
    cases e with
    | observe b => exact ih _ k (mem_mapKeys_mergeBatch k b s.map h)
    | tick => exact ih _ k h

theorem c2_amended_no_purge_witness :
    (1 : ℤ) ∈ mapKeys (runEvents ⟨[((1 : ℤ), mkRat 9 10)], 1⟩
      [ObsEvent.observe [(10, mkRat 19 20)], ObsEvent.tick]).map :=
  c2_amended_no_purge _ _ 1 (by decide)

/-! ### Commit throttle (timed model)

Source: the IntersectionObserver callback merges the batch into the map,
then `if (ioThrottleRef.current) return;` skips scheduling when a commit is
already pending, otherwise schedules `setTimeout(..., 100)`.  The timer
body clears the pending handle and performs the commit decision.

The timed model processes batches in timestamp order.  A pending timer with
fire time `f` fires (as its own event-loop task) before any batch arriving
at time `t ≥ f` is handled; the commit decision uses the map as it was at
fire time.  After the last batch, a still-pending timer eventually fires.
-/

def COMMIT_DELAY : ℕ := 100

structure ThrottleState where
  pending : Option ℕ
  commits : List ℕ
  map : RatioMap
  cur : ℤ

/-- The `setTimeout` body: clear the pending handle, record the decision
time, and run the full-map commit scan. -/
def fireCommit (f : ℕ) (s : ThrottleState) : ThrottleState :=
  { pending := none, commits := s.commits ++ [f],
    map := s.map, cur := commitPage s.map s.cur }

/-- Handling one timestamped batch: fire a due timer first, merge the batch
into the persistent map, then schedule a commit only if none is pending. -/
def stepBatch (s : ThrottleState) (tb : ℕ × List (ℤ × ℚ)) : ThrottleState :=
  let s1 := match s.pending with
    | some f => if f ≤ tb.1 then fireCommit f s else s
    | none => s
  let s2 := { s1 with map := mergeBatch s1.map tb.2 }
  match s2.pending with
  | none => { s2 with pending := some (tb.1 + COMMIT_DELAY) }
  | some _ => s2

/-- After the last batch a still-scheduled timer fires. -/
def flushPending (s : ThrottleState) : ThrottleState :=
  match s.pending with
  | some f => fireCommit f s
  | none => s

def runThrottle (s : ThrottleState) (bs : List (ℕ × List (ℤ × ℚ))) :
    ThrottleState :=
  flushPending (bs.foldl stepBatch s)

lemma stepBatch_none (s : ThrottleState) (tb : ℕ × List (ℤ × ℚ))
    (h : s.pending = none) :
    stepBatch s tb = { s with map := mergeBatch s.map tb.2,
                              pending := some (tb.1 + COMMIT_DELAY) } := by
  simp [stepBatch, h]

lemma stepBatch_fire (s : ThrottleState) (tb : ℕ × List (ℤ × ℚ)) (f : ℕ)
    (h : s.pending = some f) (hle : f ≤ tb.1) :
    stepBatch s tb = { pending := some (tb.1 + COMMIT_DELAY),
                       commits := s.commits ++ [f],
                       map := mergeBatch s.map tb.2,
                       cur := commitPage s.map s.cur } := by
  simp [stepBatch, h, hle, fireCommit]

lemma stepBatch_skip (s : ThrottleState) (tb : ℕ × List (ℤ × ℚ)) (f : ℕ)
    (h : s.pending = some f) (hgt : ¬ f ≤ tb.1) :
    stepBatch s tb = { s with map := mergeBatch s.map tb.2 } := by
  simp [stepBatch, h, hgt]

lemma chain'_append_singleton (l : List ℕ) (x : ℕ)
    (hl : List.Chain' (fun a b => a + COMMIT_DELAY ≤ b) l)
    (h : ∀ c ∈ l, c + COMMIT_DELAY ≤ x) :
    List.Chain' (fun a b => a + COMMIT_DELAY ≤ b) (l ++ [x]) := by
  refine hl.append (List.chain'_singleton x) ?_
  intro a ha y hy
  have ha' : a ∈ l := List.mem_of_getLast?_eq_some ha
  have hy' : x = y := by simpa using hy
  rw [← hy']
  exact h a ha'

lemma throttle_inv :
    ∀ (bs : List (ℕ × List (ℤ × ℚ))) (s : ThrottleState) (tNow : ℕ),
      List.Chain (· ≤ ·) tNow (bs.map Prod.fst) →
      List.Chain' (fun a b => a + COMMIT_DELAY ≤ b) s.commits →
      (∀ c ∈ s.commits, c ≤ tNow) →
      (∀ f, s.pending = some f → ∀ c ∈ s.commits, c + COMMIT_DELAY ≤ f) →
      List.Chain' (fun a b => a + COMMIT_DELAY ≤ b)
        (bs.foldl stepBatch s).commits ∧
      (∀ f, (bs.foldl stepBatch s).pending = some f →
        ∀ c ∈ (bs.foldl stepBatch s).commits, c + COMMIT_DELAY ≤ f) ∧
      (∀ c ∈ (bs.foldl stepBatch s).commits,
        c ∈ s.commits ∨ s.pending = some c ∨
          ∃ tb ∈ bs, c = tb.1 + COMMIT_DELAY) ∧
      (∀ f, (bs.foldl stepBatch s).pending = some f →
        s.pending = some f ∨ ∃ tb ∈ bs, f = tb.1 + COMMIT_DELAY) := by
  intro bs
  induction bs with
  | nil =>
    intro s tNow _ hchain hpast hpend
    refine ⟨hchain, hpend, ?_, ?_⟩
    · intro c hc; exact Or.inl hc
    · intro f hf; exact Or.inl hf
  | cons tb bs ih =>
    intro s tNow hmono hchain hpast hpend
    rw [List.map_cons] at hmono
    cases hmono with
    | cons hle hmono' =>
      rw [List.foldl_cons]
      have hnowle : tNow ≤ tb.1 := hle
      rcases hp : s.pending with _ | f
      · -- no pending commit: merge and schedule
        rw [stepBatch_none s tb hp]
        have h := ih { s with map := mergeBatch s.map tb.2,
                              pending := some (tb.1 + COMMIT_DELAY) } tb.1
          hmono' hchain
          (fun c hc => le_trans (hpast c hc) hnowle)
          (by
            intro f hf c hc
            have h1 : tb.1 + COMMIT_DELAY = f := by
              simpa using hf
            have := hpast c hc
            omega)
        refine ⟨h.1, h.2.1, ?_, ?_⟩
        · intro c hc
          rcases h.2.2.1 c hc with hcs | hcp | ⟨tb', htb', hc'⟩
          · exact Or.inl hcs
          · have h1 : tb.1 + COMMIT_DELAY = c := by simpa using hcp
            exact Or.inr (Or.inr ⟨tb, List.mem_cons_self _ _, h1.symm⟩)
          · exact Or.inr (Or.inr ⟨tb', List.mem_cons_of_mem _ htb', hc'⟩)
        · intro f hf
          rcases h.2.2.2 f hf with hfp | ⟨tb', htb', hf'⟩
          · have h1 : tb.1 + COMMIT_DELAY = f := by simpa using hfp
            exact Or.inr ⟨tb, List.mem_cons_self _ _, h1.symm⟩
          · exact Or.inr ⟨tb', List.mem_cons_of_mem _ htb', hf'⟩
      · -- a commit is pending
        by_cases hfire : f ≤ tb.1
        · -- it fires before this batch is handled
          rw [stepBatch_fire s tb f hp hfire]
          have hcommits' : ∀ c ∈ s.commits ++ [f], c ≤ tb.1 := by
            intro c hc
            rcases List.mem_append.mp hc with hc | hc
            · exact le_trans (hpast c hc) hnowle
            · have : c = f := by simpa using hc
              omega
          have h := ih { pending := some (tb.1 + COMMIT_DELAY),
                         commits := s.commits ++ [f],
                         map := mergeBatch s.map tb.2,
                         cur := commitPage s.map s.cur } tb.1
            hmono'
            (chain'_append_singleton s.commits f hchain (hpend f hp))
            hcommits'
            (by
              intro f' hf' c hc
              have h1 : tb.1 + COMMIT_DELAY = f' := by simpa using hf'
              have := hcommits' c hc
              omega)
          refine ⟨h.1, h.2.1, ?_, ?_⟩
          · intro c hc
            rcases h.2.2.1 c hc with hcs | hcp | ⟨tb', htb', hc'⟩
            · rcases List.mem_append.mp hcs with hcs | hcs
              · exact Or.inl hcs
              · have h1 : c = f := by simpa using hcs
                exact Or.inr (Or.inl (by rw [h1]))
            · have h1 : tb.1 + COMMIT_DELAY = c := by simpa using hcp
              exact Or.inr (Or.inr ⟨tb, List.mem_cons_self _ _, h1.symm⟩)
            · exact Or.inr (Or.inr ⟨tb', List.mem_cons_of_mem _ htb', hc'⟩)
          · intro f' hf'
            rcases h.2.2.2 f' hf' with hfp | ⟨tb', htb', hf''⟩
            · have h1 : tb.1 + COMMIT_DELAY = f' := by simpa using hfp
              exact Or.inr ⟨tb, List.mem_cons_self _ _, h1.symm⟩
            · exact Or.inr ⟨tb', List.mem_cons_of_mem _ htb', hf''⟩
        · -- not yet due: merge only, keep the earlier pending time
          rw [stepBatch_skip s tb f hp hfire]
          have h := ih { s with map := mergeBatch s.map tb.2 } tb.1
            hmono' hchain
            (fun c hc => le_trans (hpast c hc) hnowle)
            (by
              intro f' hf' c hc
              have hf'' : s.pending = some f' := hf'
              exact hpend f' hf'' c hc)
          refine ⟨h.1, h.2.1, ?_, ?_⟩
          · intro c hc
            rcases h.2.2.1 c hc with hcs | hcp | ⟨tb', htb', hc'⟩
            · exact Or.inl hcs
            · have h1 : s.pending = some c := hcp
              rw [hp] at h1
              exact Or.inr (Or.inl h1)
            · exact Or.inr (Or.inr ⟨tb', List.mem_cons_of_mem _ htb', hc'⟩)
          · intro f' hf'
            rcases h.2.2.2 f' hf' with hfp | ⟨tb', htb', hf''⟩
            · have h1 : s.pending = some f' := hfp
              rw [hp] at h1
              exact Or.inl h1
            · exact Or.inr ⟨tb', List.mem_cons_of_mem _ htb', hf''⟩

/-- C5: starting with no pending commit, for every timestamp-ordered batch
sequence the recorded commit times are at least `COMMIT_DELAY = 100`
apart (at most one decision per 100 ms window), and every commit time is
`t + 100` for the arrival time `t` of some batch — no decision occurs
without a preceding ratio update scheduling it. -/
theorem c5_commit_throttle (bs : List (ℕ × List (ℤ × ℚ)))
    (m₀ : RatioMap) (cur₀ : ℤ)
    (hmono : List.Chain' (· ≤ ·) (bs.map Prod.fst)) :
    List.Chain' (fun a b => a + COMMIT_DELAY ≤ b)
      (runThrottle ⟨none, [], m₀, cur₀⟩ bs).commits ∧
    ∀ c ∈ (runThrottle ⟨none, [], m₀, cur₀⟩ bs).commits,
      ∃ tb ∈ bs, c = tb.1 + COMMIT_DELAY := by
  have hchain0 : List.Chain (· ≤ ·) 0 (bs.map Prod.fst) := by
    cases h : bs.map Prod.fst with
    | nil => exact List.Chain.nil
    | cons a l =>
      rw [h] at hmono
      exact List.Chain.cons (Nat.zero_le a) hmono
  have h := throttle_inv bs ⟨none, [], m₀, cur₀⟩ 0 hchain0
    List.chain'_nil (by intro c hc; simp at hc) (by intro f hf c hc; simp at hc)
  set res := bs.foldl stepBatch (⟨none, [], m₀, cur₀⟩ : ThrottleState) with hres
  have horigin : ∀ c ∈ res.commits, ∃ tb ∈ bs, c = tb.1 + COMMIT_DELAY := by
    intro c hc
    rcases h.2.2.1 c hc with hcs | hcp | hex
    · simp at hcs
    · simp at hcp
    · exact hex
  rcases hp : res.pending with _ | f
  · have hrun : runThrottle ⟨none, [], m₀, cur₀⟩ bs = res := by
      rw [runThrottle, ← hres, flushPending, hp]
    rw [hrun]
    exact ⟨h.1, horigin⟩
  · have hrun : runThrottle ⟨none, [], m₀, cur₀⟩ bs = fireCommit f res := by
      rw [runThrottle, ← hres, flushPending, hp]
    rw [hrun]
    constructor
    · exact chain'_append_singleton res.commits f h.1 (h.2.1 f hp)
    · intro c hc
      rcases List.mem_append.mp hc with hc | hc
      · exact horigin c hc
      · have hcf : c = f := by simpa using hc
        rcases h.2.2.2 f hp with hfp | hex
        · simp at hfp
        · exact hcf ▸ hex

theorem c5_commit_throttle_witness :
    List.Chain' (fun a b => a + COMMIT_DELAY ≤ b)
      (runThrottle ⟨none, [], [], 1⟩
        [(0, [(1, mkRat 7 10)]), (30, [(2, mkRat 1 10)]),
         (150, [(2, mkRat 4 5)])]).commits ∧
    ∀ c ∈ (runThrottle ⟨none, [], [], 1⟩
        [(0, [(1, mkRat 7 10)]), (30, [(2, mkRat 1 10)]),
         (150, [(2, mkRat 4 5)])]).commits,
      ∃ tb ∈ [((0 : ℕ), [((1 : ℤ), mkRat 7 10)]), (30, [(2, mkRat 1 10)]),
         (150, [(2, mkRat 4 5)])], c = tb.1 + COMMIT_DELAY :=
  c5_commit_throttle _ [] 1 (by norm_num [List.chain'_cons])

/-! ### Sticky notes

Source (StickyNote): the note card is absolutely positioned inside the page
wrapper with `left: xPct%`, `top: yPct%`; CSS resolves these against
the wrapper's rendered width/height, i.e. pixel position
`= (xPct/100 · w, yPct/100 · h)`.  Dragging recomputes the percentages from
pixel deltas against `pageEl.getBoundingClientRect()` and clamps with
`Math.max(0, Math.min(95, v))`.
-/

structure Note where
  id : ℕ
  page : ℤ
  xPct : ℚ
  yPct : ℚ
  content : String

/-- Pixel position of a note on a page rendered at `w × h` pixels
(CSS `left: xPct%; top: yPct%` inside the `position:relative` wrapper). -/
def notePixelPos (n : Note) (w h : ℚ) : ℚ × ℚ :=
  (n.xPct / 100 * w, n.yPct / 100 * h)

/-- C6: scaling the rendered page dimensions by `k` scales a note's pixel
position by exactly `k` (the stored percentages are untouched — the pixel
position is a pure function of them), and the spec's concrete instance: a
note at `(xPct=10, yPct=20)` sits at pixel `(60,180)` on a `600×900` page
and at `(120,360)` on a `1200×1800` page. -/
theorem c6_zoom_invariance :
    (∀ (n : Note) (w h k : ℚ),
      notePixelPos n (k * w) (k * h)
        = (k * (notePixelPos n w h).1, k * (notePixelPos n w h).2)) ∧
    notePixelPos ⟨0, 1, 10, 20, ""⟩ 600 900 = (60, 180) ∧
    notePixelPos ⟨0, 1, 10, 20, ""⟩ 1200 1800 = (120, 360) := by
  refine ⟨?_, ?_, ?_⟩
  · intro n w h k
    simp only [notePixelPos, Prod.mk.injEq]
    constructor <;> ring
  · simp only [notePixelPos, Prod.mk.injEq]
    norm_num
  · simp only [notePixelPos, Prod.mk.injEq]
    norm_num

/-- The spec's clamp to an inclusive interval. -/
def clamp (lo hi v : ℚ) : ℚ := min hi (max lo v)

/-- One `onMouseMove` step of a drag session: percentage deltas from pixel
deltas against the page rectangle, then `Math.max(0, Math.min(95, ...))`
on both axes. -/
def dragMove (startXPct startYPct startMouseX startMouseY
    clientX clientY w h : ℚ) : ℚ × ℚ :=
  (max 0 (min 95 (startXPct + (clientX - startMouseX) / w * 100)),
   max 0 (min 95 (startYPct + (clientY - startMouseY) / h * 100)))

lemma max_min_clamp (v : ℚ) : max 0 (min 95 v) = clamp 0 95 v := by
  rw [clamp, max_min_distrib_left]
  norm_num

/-- C7: each drag move yields exactly
`clamp(start + (Δpixel / pageDimension)·100, 0, 95)` on both axes, and the
result always lies in `[0, 95]`. -/
theorem c7_drag_clamp (sx sy mx my cx cy w h : ℚ) :
    dragMove sx sy mx my cx cy w h
      = (clamp 0 95 (sx + (cx - mx) / w * 100),
         clamp 0 95 (sy + (cy - my) / h * 100)) ∧
    0 ≤ (dragMove sx sy mx my cx cy w h).1 ∧
    (dragMove sx sy mx my cx cy w h).1 ≤ 95 ∧
    0 ≤ (dragMove sx sy mx my cx cy w h).2 ∧
    (dragMove sx sy mx my cx cy w h).2 ≤ 95 := by
  refine ⟨?_, ?_, ?_, ?_, ?_⟩
  · rw [dragMove, max_min_clamp, max_min_clamp]
  · exact le_max_left 0 _
  · exact max_le (by norm_num) (min_le_left _ _)
  · exact le_max_left 0 _
  · exact max_le (by norm_num) (min_le_left _ _)

/-! ### Note updates (optimistic local mutation)

Source (`updateNote`):
```
setNotes(prev => prev.map(n => n.id === id ? { ...n, ...changes } : n));
```
The drag handler calls `onUpdate({ xPct, yPct })`; the editor's save calls
`onUpdate({ content: draft })`.  The JS object spread overrides exactly the
fields present in `changes`.
-/

structure NoteChanges where
  xPct : Option ℚ
  yPct : Option ℚ
  content : Option String

def applyChanges (ch : NoteChanges) (n : Note) : Note :=
  { n with xPct := ch.xPct.getD n.xPct,
           yPct := ch.yPct.getD n.yPct,
           content := ch.content.getD n.content }

def updateNote (id : ℕ) (ch : NoteChanges) (notes : List Note) : List Note :=
  notes.map fun n => if n.id = id then applyChanges ch n else n

/-- The drag payload `{ xPct, yPct }`. -/
def positionChange (x y : ℚ) : NoteChanges := ⟨some x, some y, none⟩

/-- The save payload `{ content: draft }`. -/
def contentChange (c : String) : NoteChanges := ⟨none, none, some c⟩

/-- C10: a position update leaves every note's id, page and content
unchanged; a content save leaves every note's id, page and percentage
coordinates unchanged; and a note whose id differs from the updated one is
kept in the collection entirely unchanged. -/
theorem c10_update_frame :
    (∀ (id : ℕ) (x y : ℚ) (notes : List Note),
      (updateNote id (positionChange x y) notes).map
          (fun n => (n.id, n.page, n.content))
        = notes.map (fun n => (n.id, n.page, n.content))) ∧
    (∀ (id : ℕ) (c : String) (notes : List Note),
      (updateNote id (contentChange c) notes).map
          (fun n => (n.id, n.page, n.xPct, n.yPct))
        = notes.map (fun n => (n.id, n.page, n.xPct, n.yPct))) ∧
    (∀ (id : ℕ) (ch : NoteChanges) (notes : List Note) (n : Note),
      n ∈ notes → n.id ≠ id → n ∈ updateNote id ch notes) := by
  refine ⟨?_, ?_, ?_⟩
  · intro id x y notes
    rw [updateNote, List.map_map]
    apply List.map_congr_left
    intro n _
    by_cases h : n.id = id <;>
      simp [h, applyChanges, positionChange]
  · intro id c notes
    rw [updateNote, List.map_map]
    apply List.map_congr_left
    intro n _
    by_cases h : n.id = id <;>
      simp [h, applyChanges, contentChange]
  · intro id ch notes n hn hne
    have h := List.mem_map_of_mem
      (fun n => if n.id = id then applyChanges ch n else n) hn
    simpa [updateNote, hne] using h

theorem c10_update_frame_witness :
    (⟨2, 1, 5, 5, ""⟩ : Note) ∈
      updateNote 1 (positionChange 3 4) [⟨2, 1, 5, 5, ""⟩] :=
  c10_update_frame.2.2 1 (positionChange 3 4) [⟨2, 1, 5, 5, ""⟩]
    ⟨2, 1, 5, 5, ""⟩ (by simp) (by decide)

/-! ### Bookmarks

Source (`toggleBookmark`):
```
onUpdateBookmarks((prev) =>
  prev.includes(currentPage)
    ? prev.filter((p) => p !== currentPage)
    : [...prev, currentPage].sort((a, b) => a - b));
```
`.sort((a, b) => a - b)` sorts the integers ascending; over a linear order
the ascending sorted permutation of a list is unique, so it is modelled
with `List.insertionSort (· ≤ ·)`.

Source (`updateBookmarks`): on each update the old and new page arrays are
diffed; `added = newPages.filter(p => !oldPages.includes(p))` receive one
INSERT each and `removed = oldPages.filter(p => !newPages.includes(p))`
one DELETE each — never a full re-sync.
-/

def toggleBookmark (currentPage : ℤ) (prev : List ℤ) : List ℤ :=
  if currentPage ∈ prev then prev.filter (· ≠ currentPage)
  else List.insertionSort (· ≤ ·) (prev ++ [currentPage])

/-- The `(added, removed)` diff that `updateBookmarks` turns into INSERT
and DELETE events, one event per page. -/
def updateBookmarksDiff (oldPages newPages : List ℤ) : List ℤ × List ℤ :=
  (newPages.filter (· ∉ oldPages), oldPages.filter (· ∉ newPages))

/-- C8: toggling a present page removes it and toggling an absent page
inserts it, the sequence staying sorted ascending after every mutation;
toggling the same page twice from the empty set returns the empty set; the
diff-based sync emits exactly `new \ old` as inserts and `old \ new` as
deletes — for the double toggle of page 5, one insert and then one
delete. -/
theorem c8_bookmark_toggle :
    (∀ (c : ℤ) (prev : List ℤ),
      (c ∈ prev → c ∉ toggleBookmark c prev) ∧
      (c ∉ prev → c ∈ toggleBookmark c prev) ∧
      (prev.Sorted (· ≤ ·) → (toggleBookmark c prev).Sorted (· ≤ ·))) ∧
    toggleBookmark 5 (toggleBookmark 5 []) = [] ∧
    (∀ (oldPages newPages : List ℤ) (p : ℤ),
      (p ∈ (updateBookmarksDiff oldPages newPages).1 ↔
        p ∈ newPages ∧ p ∉ oldPages) ∧
      (p ∈ (updateBookmarksDiff oldPages newPages).2 ↔
        p ∈ oldPages ∧ p ∉ newPages)) ∧
    updateBookmarksDiff [] [5] = ([5], []) ∧
    updateBookmarksDiff [5] [] = ([], [5]) := by
  refine ⟨?_, ?_, ?_, ?_, ?_⟩
  · intro c prev
    refine ⟨?_, ?_, ?_⟩
    · intro hmem
      rw [toggleBookmark, if_pos hmem]
      simp [List.mem_filter]
    · intro hmem
      rw [toggleBookmark, if_neg hmem]
      have hperm := List.perm_insertionSort (· ≤ ·) (prev ++ [c])
      rw [hperm.mem_iff]
      simp
    · intro hsorted
      rw [toggleBookmark]
      by_cases hmem : c ∈ prev
      · rw [if_pos hmem]
        exact hsorted.filter _
      · rw [if_neg hmem]
        exact List.sorted_insertionSort (· ≤ ·) _
  · decide
  · intro oldPages newPages p
    constructor <;> simp [updateBookmarksDiff, List.mem_filter]
  · decide
  · decide

theorem c8_bookmark_toggle_witness :
    (5 : ℤ) ∉ toggleBookmark 5 [5] ∧
    (5 : ℤ) ∈ toggleBookmark 5 [] ∧
    List.Sorted (· ≤ ·) (toggleBookmark 2 [1, 3]) := by
  refine ⟨?_, ?_, ?_⟩
  · exact (c8_bookmark_toggle.1 5 [5]).1 (by decide)
  · exact (c8_bookmark_toggle.1 5 []).2.1 (by decide)
  · exact (c8_bookmark_toggle.1 2 [1, 3]).2.2 (by decide)

/-! ### Placeholder sizing

Source:
```
const placeholderW = Math.round(baseDims.width * scale);
const placeholderH = Math.round(baseDims.height * scale);
...
width:  isRendered ? undefined : `${placeholderW}px`,
height: isRendered ? undefined : `${placeholderH}px`,
...
{isRendered && (<Page pageNumber={pageNum} scale={scale} ... />)}
```
`Math.round` rounds half away from zero toward `+∞`, i.e. `⌊q + 1/2⌋` for
the (nonnegative) sizes involved.
-/

def jsRound (q : ℚ) : ℤ := ⌊q + 1/2⌋

def placeholderW (baseW scale : ℚ) : ℤ := jsRound (baseW * scale)

def placeholderH (baseH scale : ℚ) : ℤ := jsRound (baseH * scale)

/-- The layout style of one page slot: explicit pixel dimensions and no
mounted `<Page>` outside the render window; content-driven dimensions and
a mounted `<Page>` inside it. -/
structure PageSlot where
  width : Option ℤ
  height : Option ℤ
  mountsPage : Bool

def pageSlotStyle (pageNum : ℤ) (window : Finset ℤ)
    (baseW baseH scale : ℚ) : PageSlot :=
  if pageNum ∈ window then ⟨none, none, true⟩
  else ⟨some (placeholderW baseW scale), some (placeholderH baseH scale),
    false⟩

/-- C9 fails as stated: the reserved layout space is the *rounded* product,
not exactly `referencePageSize × zoomScale`.  For page 9 outside the window
of a 20-page document at `currentPage = 1`, reference width 612 and zoom
scale 0.7 ∈ [0.5, 3.0], the slot width is 428 px while
`612 × 0.7 = 428.4`. -/
theorem c9_counterexample :
    (pageSlotStyle 9 (computeWindow 1 20 2) 612 792 (7/10)).width
      = some 428 ∧
    ((428 : ℚ) ≠ 612 * (7/10)) := by
  constructor
  · have h9 : (9 : ℤ) ∉ computeWindow 1 20 2 := by decide
    rw [pageSlotStyle, if_neg h9]
    simp only [placeholderW, jsRound, Option.some.injEq]
    norm_num
  · norm_num

lemma jsRound_err (q : ℚ) : |(jsRound q : ℚ) - q| ≤ 1/2 := by
  rw [jsRound]
  have h1 : ((⌊q + 1/2⌋ : ℤ) : ℚ) ≤ q + 1/2 := Int.floor_le _
  have h2 : q + 1/2 - 1 < ((⌊q + 1/2⌋ : ℤ) : ℚ) := Int.sub_one_lt_floor _
  rw [abs_le]
  constructor <;> linarith

/-- C9 amended: for every page outside the render window and every zoom
scale in `[0.5, 3.0]`, the slot reserves exactly
`round(referenceDimension × zoomScale)` pixels on each axis — the exact
product rounded to the nearest whole pixel, hence within half a pixel of
`referencePageSize × zoomScale` — and mounts no page content. -/
theorem c9_amended_placeholder (p : ℤ) (window : Finset ℤ)
    (baseW baseH scale : ℚ) (hp : p ∉ window)
    (_h1 : 1/2 ≤ scale) (_h2 : scale ≤ 3) :
    pageSlotStyle p window baseW baseH scale
      = ⟨some (jsRound (baseW * scale)), some (jsRound (baseH * scale)),
         false⟩ ∧
    |(jsRound (baseW * scale) : ℚ) - baseW * scale| ≤ 1/2 ∧
    |(jsRound (baseH * scale) : ℚ) - baseH * scale| ≤ 1/2 := by
  refine ⟨?_, jsRound_err _, jsRound_err _⟩
  rw [pageSlotStyle, if_neg hp]
  rfl

theorem c9_amended_placeholder_witness :
    pageSlotStyle 9 (computeWindow 1 20 2) 612 792 (1/2)
      = ⟨some (jsRound (612 * (1/2))), some (jsRound (792 * (1/2))),
         false⟩ ∧
    |(jsRound ((612 : ℚ) * (1/2)) : ℚ) - 612 * (1/2)| ≤ 1/2 ∧
    |(jsRound ((792 : ℚ) * (1/2)) : ℚ) - 792 * (1/2)| ≤ 1/2 :=
  c9_amended_placeholder 9 (computeWindow 1 20 2) 612 792 (1/2)
    (by decide) (by norm_num) (by norm_num)

end KindleWood
